import Mathlib

/-
  Verification of the grid-world engine of Drowchik/prog-instruments-labs (lab_5).

  The repository ships only the test file `src/lab_5/test_simulation.py` for this
  component; the implementation modules (`src/point.py`, `src/enity.py`,
  `src/mapping.py`) are not part of the sources available here.  All definitions
  below are therefore modelled from the specification (spec.md §3, §4, §7), which
  describes the coordinate type, the entity model, the map registry and the
  breadth-first path search with its adjacency-stop rule, tie-breaking order and
  error conventions.
-/

/-- Modelled from the spec: `Coordinate`/`Point`, an immutable 2-D integer point
(spec §3).  The implementation module `src/point.py` is absent from the sources. -/
structure Point where
  x : Int
  y : Int
deriving DecidableEq, Repr

/-- Modelled from the spec: structural equality on `(x, y)` (spec §4.1),
the Boolean equality test used by the engine. -/
def Point.eq (p q : Point) : Bool :=
  decide (p.x = q.x) && decide (p.y = q.y)

/-- Modelled from the spec: the four axis-aligned 4-connected neighbours
`(x, y+1), (x, y-1), (x+1, y), (x-1, y)`, independent of grid bounds (spec §3). -/
def Point.get_neighboors (p : Point) : List Point :=
  [⟨p.x, p.y + 1⟩, ⟨p.x, p.y - 1⟩, ⟨p.x + 1, p.y⟩, ⟨p.x - 1, p.y⟩]

/-- Membership test on a list of points, via the engine's equality `Point.eq`. -/
def memPt (v : Point) (l : List Point) : Bool :=
  l.any fun w => Point.eq w v

/-- `p` is a 4-connected neighbour of `q`. -/
def isNeighborOf (p q : Point) : Bool :=
  memPt p q.get_neighboors

/-- Modelled from the spec: the variant tag of an entity (spec §3 lists the
observed variant `Grass`); `src/enity.py` is absent from the sources. -/
inductive EntityKind where
  | grass
deriving DecidableEq, Repr

/-- The display tag fixed by the variant, not caller-supplied (spec §4.2). -/
def EntityKind.spriteOf : EntityKind → String
  | .grass => "grass"

/-- Modelled from the spec: a placed object carrying a coordinate and a
variant-determined sprite (spec §3). -/
structure Entity where
  kind : EntityKind
  coordinate : Point
deriving DecidableEq, Repr

/-- The sprite of an entity is determined by its variant (spec §4.2). -/
def Entity.sprite (e : Entity) : String :=
  e.kind.spriteOf

/-- The `Grass` variant constructor observed in the tests. -/
def Grass (p : Point) : Entity :=
  ⟨EntityKind.grass, p⟩

/-- Modelled from the spec: the failure conditions of the engine (spec §7). -/
inductive MapError where
  | OutOfBounds
  | PathNotFound
deriving DecidableEq, Repr

/-- Modelled from the spec: the Grid World — fixed dimensions plus a sparse
registry mapping coordinates to entities (spec §3); `src/mapping.py` is absent
from the sources.  The registry is a coordinate-keyed mapping (spec §9). -/
structure Map where
  height : Nat
  weight : Nat
  registry : Point → Option Entity

/-- `get_size() = (height, weight)` (spec §4.3). -/
def Map.get_size (m : Map) : Nat × Nat :=
  (m.height, m.weight)

/-- `get_area() = height × weight` (spec §4.3). -/
def Map.get_area (m : Map) : Nat :=
  m.height * m.weight

/-- A coordinate lies within `[0, height) × [0, weight)` (spec §3). -/
def Map.in_bounds (m : Map) (p : Point) : Bool :=
  decide (0 ≤ p.x) && decide (p.x < (m.height : Int)) &&
    decide (0 ≤ p.y) && decide (p.y < (m.weight : Int))

/-- `is_occupied(point)`: true iff a registry entry exists at `point`
(spec §4.3). -/
def Map.is_occupied (m : Map) (p : Point) : Bool :=
  (m.registry p).isSome

/-- A node of the search graph is traversable iff it is in bounds and not
occupied by a blocking entity (spec §4.4 step 2). -/
def Map.traversable (m : Map) (p : Point) : Bool :=
  m.in_bounds p && !(m.is_occupied p)

/-- Modelled from the spec: `add_object(entity)` inserts the entity into the
registry at `entity.coordinate` (overwrite policy, spec §4.3) and returns that
coordinate; an out-of-bounds coordinate fails with `OutOfBounds` (spec §7).
The post-state of the world is returned alongside the result. -/
def Map.add_object (m : Map) (e : Entity) : Except MapError Point × Map :=
  if m.in_bounds e.coordinate then
    (Except.ok e.coordinate,
      { m with registry := fun q => if Point.eq q e.coordinate then some e else m.registry q })
  else
    (Except.error MapError.OutOfBounds, m)

/-- Modelled from the spec: `get_object(point)` looks the registry up by exact
coordinate; absence is a normal outcome (spec §4.3), an out-of-bounds coordinate
fails with `OutOfBounds` (spec §7). -/
def Map.get_object (m : Map) (p : Point) : Except MapError (Option Entity) × Map :=
  if m.in_bounds p then (Except.ok (m.registry p), m)
  else (Except.error MapError.OutOfBounds, m)

/-- Modelled from the spec: one expansion step of the breadth-first search —
the dequeued node's neighbours are scanned in the fixed `get_neighboors` order
(spec §4.4 tie-breaking); a newly discovered traversable node adjacent to the
target stops the search at once, any other one is marked visited and appended
to the frontier.  The queue carries, with each node, the reversed route by
which it was first discovered (equivalent to the predecessor recording of
spec §4.4 step 3). -/
def Map.bfs_expand (m : Map) (target : Point) (pathRev : List Point) :
    List Point → List Point → List (Point × List Point) →
      (Option (List Point) × List Point × List (Point × List Point)) × Map
  | [], visited, acc => ((none, visited, acc), m)
  | v :: rest, visited, acc =>
    if m.traversable v && !(memPt v visited) then
      if isNeighborOf v target then ((some (v :: pathRev), visited, acc), m)
      else m.bfs_expand target pathRev rest (visited ++ [v]) (acc ++ [(v, v :: pathRev)])
    else m.bfs_expand target pathRev rest visited acc

/-- Modelled from the spec: the FIFO main loop of the search (spec §4.4 steps
2–5).  The fuel argument bounds the number of dequeue steps; `search_path`
supplies enough fuel for the bounded grid.  Exhaustion of either the frontier
or the fuel signals `PathNotFound` (spec §7). -/
def bfs_loop (target : Point) :
    Nat → Map → List (Point × List Point) → List Point →
      Except MapError (List Point) × Map
  | 0, m, _, _ => (Except.error MapError.PathNotFound, m)
  | _ + 1, m, [], _ => (Except.error MapError.PathNotFound, m)
  | fuel + 1, m, (u, pathRev) :: qrest, visited =>
    match m.bfs_expand target pathRev u.get_neighboors visited [] with
    | ((some found, _, _), m2) => (Except.ok found.reverse, m2)
    | ((none, visited2, items), m2) => bfs_loop target fuel m2 (qrest ++ items) visited2

/-- Modelled from the spec: `search_path(start, target)` (spec §4.4).  If the
start is already adjacent to the target — or equals it, the degenerate case of
spec §7 — the shortest qualifying path is `[start]`; otherwise a breadth-first
search runs until the first node adjacent to the target is discovered, and the
route to it is returned start-first.  The post-state of the world is returned
alongside the result. -/
def Map.search_path (m : Map) (start target : Point) :
    Except MapError (List Point) × Map :=
  if Point.eq start target || isNeighborOf start target then (Except.ok [start], m)
  else bfs_loop target (m.get_area + 1) m [(start, [start])] [start]

/-- `ReachN m s n v`: from `s` one reaches `v` in exactly `n` grid steps, every
step moving to a 4-connected neighbour that is traversable on `m` (the source
cell itself is exempt, as in the search, which never tests its own start). -/
inductive ReachN (m : Map) (s : Point) : Nat → Point → Prop where
  | zero : ReachN m s 0 s
  | succ {n : Nat} {u v : Point} : ReachN m s n u →
      memPt v u.get_neighboors = true → m.traversable v = true →
      ReachN m s (n + 1) v

/-- `RevChain m s pr v`: `pr` is a reversed route of the search — it ends at
`s`, starts at `v`, consecutive elements are 4-connected, and every element
except the source is traversable. -/
inductive RevChain (m : Map) (s : Point) : List Point → Point → Prop where
  | base : RevChain m s [s] s
  | step {pr : List Point} {u v : Point} : RevChain m s pr u →
      memPt v u.get_neighboors = true → m.traversable v = true →
      RevChain m s (v :: pr) v

/-! ### Concrete worlds used by the observed scenarios -/

/-- The empty 5×5 world of the observed path-search scenarios. -/
def map5 : Map :=
  ⟨5, 5, fun _ => none⟩

/-- An empty 1×1 world: its single cell has no in-bounds neighbour. -/
def map1 : Map :=
  ⟨1, 1, fun _ => none⟩

/-- The empty 10×10 world of the observed placement scenarios. -/
def map10 : Map :=
  ⟨10, 10, fun _ => none⟩

/-! ### Basic facts about points and neighbourhoods -/

theorem Point.eq_iff {p q : Point} : Point.eq p q = true ↔ p = q := by
  cases p
  cases q
  simp [Point.eq, Point.mk.injEq, and_comm]

theorem memPt_iff {v : Point} {l : List Point} : memPt v l = true ↔ v ∈ l := by
  simp [memPt, List.any_eq_true, Point.eq_iff]

theorem memPt_eq_false_iff {v : Point} {l : List Point} :
    memPt v l = false ↔ v ∉ l := by
  rw [← Bool.not_eq_true, not_iff_not]
  exact memPt_iff

theorem mem_get_neighboors_iff {q p : Point} :
    q ∈ p.get_neighboors ↔
      (q.x = p.x ∧ q.y = p.y + 1) ∨ (q.x = p.x ∧ q.y = p.y - 1) ∨
        (q.x = p.x + 1 ∧ q.y = p.y) ∨ (q.x = p.x - 1 ∧ q.y = p.y) := by
  cases q
  simp [Point.get_neighboors, Point.mk.injEq]

theorem get_neighboors_symm {p q : Point} :
    p ∈ q.get_neighboors ↔ q ∈ p.get_neighboors := by
  rw [mem_get_neighboors_iff, mem_get_neighboors_iff]
  omega

theorem not_mem_get_neighboors_self (p : Point) : p ∉ p.get_neighboors := by
  rw [mem_get_neighboors_iff]
  omega

theorem isNeighborOf_self (p : Point) : isNeighborOf p p = false := by
  rw [isNeighborOf, memPt_eq_false_iff]
  exact not_mem_get_neighboors_self p

theorem isNeighborOf_iff {p q : Point} :
    isNeighborOf p q = true ↔ p ∈ q.get_neighboors := by
  rw [isNeighborOf, memPt_iff]

theorem Map.in_bounds_iff {m : Map} {p : Point} :
    m.in_bounds p = true ↔
      0 ≤ p.x ∧ p.x < (m.height : Int) ∧ 0 ≤ p.y ∧ p.y < (m.weight : Int) := by
  simp [Map.in_bounds, and_assoc]

/-! ### Claims about the coordinate type -/

/-- Claim C5: for every coordinate `p = (x, y)`, including coordinates with
negative components, `get_neighboors` produces exactly the four axis-aligned
adjacent coordinates `(x, y+1), (x, y-1), (x+1, y), (x-1, y)`, with no
duplicates, independent of any grid bounds (no bound figures in the result). -/
theorem get_neighboors_exact (p : Point) :
    p.get_neighboors =
      [⟨p.x, p.y + 1⟩, ⟨p.x, p.y - 1⟩, ⟨p.x + 1, p.y⟩, ⟨p.x - 1, p.y⟩] ∧
      p.get_neighboors.Nodup := by
  refine ⟨rfl, ?_⟩
  simp [Point.get_neighboors, Point.mk.injEq]
  omega

/-- Claim C6: coordinate equality is structural — `Point.eq ⟨a,b⟩ ⟨c,d⟩` holds
iff `a = c` and `b = d`; in particular it is reflexive, and two points differ
whenever their component pairs differ. -/
theorem point_eq_structural (a b c d : Int) :
    Point.eq ⟨a, b⟩ ⟨c, d⟩ = true ↔ a = c ∧ b = d := by
  rw [Point.eq_iff]
  simp [Point.mk.injEq]

/-! ### Claims about sizes and the registry -/

/-- Claim C7: for all non-negative `h` and `w`, a world of height `h` and
weight `w` satisfies `get_size() = (h, w)` and `get_area() = h * w`, regardless
of what entities have been placed (the registry is arbitrary). -/
theorem get_size_get_area (h w : Nat) (reg : Point → Option Entity) :
    (Map.mk h w reg).get_size = (h, w) ∧ (Map.mk h w reg).get_area = h * w :=
  ⟨rfl, rfl⟩

/-- Claim C8 (amended): for every world `m` and entity `e` whose coordinate is
within bounds, `add_object e` returns `e.coordinate`, and an immediately
following `get_object e.coordinate` returns an entity with the same coordinate,
sprite and variant. -/
theorem in_bounds_registry_irrelevant (m : Map) (f : Point → Option Entity)
    (p : Point) : (Map.mk m.height m.weight f).in_bounds p = m.in_bounds p :=
  rfl

theorem add_object_roundtrip (m : Map) (e : Entity)
    (h : m.in_bounds e.coordinate = true) :
    (m.add_object e).1 = Except.ok e.coordinate ∧
      ∃ e2, (((m.add_object e).2).get_object e.coordinate).1 = Except.ok (some e2) ∧
        e2.coordinate = e.coordinate ∧ e2.sprite = e.sprite ∧ e2.kind = e.kind := by
  refine ⟨by simp [Map.add_object, h], e, ?_, rfl, rfl, rfl⟩
  have heq : Point.eq e.coordinate e.coordinate = true := Point.eq_iff.mpr rfl
  simp [Map.add_object, Map.get_object, h, heq, in_bounds_registry_irrelevant]

/-- Witness for claim C8: a concrete in-bounds placement on the 10×10 world. -/
theorem add_object_roundtrip_witness :
    (map10.add_object (Grass ⟨2, 3⟩)).1 = Except.ok (Grass ⟨2, 3⟩).coordinate ∧
      ∃ e2, (((map10.add_object (Grass ⟨2, 3⟩)).2).get_object
          (Grass ⟨2, 3⟩).coordinate).1 = Except.ok (some e2) ∧
        e2.coordinate = (Grass ⟨2, 3⟩).coordinate ∧
        e2.sprite = (Grass ⟨2, 3⟩).sprite ∧ e2.kind = (Grass ⟨2, 3⟩).kind :=
  add_object_roundtrip map10 (Grass ⟨2, 3⟩) (by rfl)

/-- Counterexample to claim C8 as stated: for an entity at the out-of-bounds
coordinate `(-1, 0)` of a 10×10 world, `add_object` does not return the
entity's coordinate — it fails with `OutOfBounds`. -/
theorem add_object_roundtrip_counterexample :
    (map10.add_object (Grass ⟨-1, 0⟩)).1 = Except.error MapError.OutOfBounds ∧
      (map10.add_object (Grass ⟨-1, 0⟩)).1 ≠ Except.ok (Grass ⟨-1, 0⟩).coordinate := by
  refine ⟨by rfl, ?_⟩
  intro h
  rw [show (map10.add_object (Grass ⟨-1, 0⟩)).1 = Except.error MapError.OutOfBounds from rfl] at h
  exact Except.noConfusion h

/-- Claim C9: a coordinate outside `[0, height) × [0, weight)` passed to
placement or lookup fails with `OutOfBounds`, and the world is left untouched —
the coordinate is never clamped or wrapped. -/
theorem out_of_bounds_rejected (m : Map) (p : Point) (e : Entity)
    (hout : ¬ (0 ≤ p.x ∧ p.x < (m.height : Int) ∧ 0 ≤ p.y ∧ p.y < (m.weight : Int)))
    (he : e.coordinate = p) :
    (m.add_object e).1 = Except.error MapError.OutOfBounds ∧ (m.add_object e).2 = m ∧
      (m.get_object p).1 = Except.error MapError.OutOfBounds ∧ (m.get_object p).2 = m := by
  have hb : m.in_bounds p = false := by
    rw [← Bool.not_eq_true, Map.in_bounds_iff]
    exact hout
  rw [Map.add_object, Map.get_object, he, hb]
  simp

/-- Witness for claim C9: the coordinate `(10, 0)` lies outside the 10×10 world
and is rejected by both placement and lookup. -/
theorem out_of_bounds_rejected_witness :
    (map10.add_object (Grass ⟨10, 0⟩)).1 = Except.error MapError.OutOfBounds ∧
      (map10.add_object (Grass ⟨10, 0⟩)).2 = map10 ∧
      (map10.get_object ⟨10, 0⟩).1 = Except.error MapError.OutOfBounds ∧
      (map10.get_object ⟨10, 0⟩).2 = map10 :=
  out_of_bounds_rejected map10 ⟨10, 0⟩ (Grass ⟨10, 0⟩) (by decide) rfl

/-! ### Claim C1: the two observed path-search scenarios -/

/-- Claim C1: on an empty 5×5 world, `search_path (0,0) (3,3)` returns exactly
`[(0,0),(0,1),(0,2),(0,3),(1,3),(2,3)]` and `search_path (0,0) (1,1)` returns
exactly `[(0,0),(0,1)]`. -/
theorem search_path_observed_scenarios :
    (map5.search_path ⟨0, 0⟩ ⟨3, 3⟩).1 =
        Except.ok [⟨0, 0⟩, ⟨0, 1⟩, ⟨0, 2⟩, ⟨0, 3⟩, ⟨1, 3⟩, ⟨2, 3⟩] ∧
      (map5.search_path ⟨0, 0⟩ ⟨1, 1⟩).1 = Except.ok [⟨0, 0⟩, ⟨0, 1⟩] :=
  ⟨rfl, rfl⟩

/-! ### The search reads the world but never writes it -/

theorem bfs_expand_snd (m : Map) (target : Point) (pru : List Point) :
    ∀ (l visited : List Point) (acc : List (Point × List Point)),
      (m.bfs_expand target pru l visited acc).2 = m := by
  intro l
  induction l with
  | nil => intro visited acc; rfl
  | cons v rest ih =>
    intro visited acc
    simp only [Map.bfs_expand]
    split
    · split
      · rfl
      · exact ih _ _
    · exact ih _ _

theorem bfs_loop_snd (target : Point) :
    ∀ (fuel : Nat) (m : Map) (queue : List (Point × List Point)) (visited : List Point),
      (bfs_loop target fuel m queue visited).2 = m := by
  intro fuel
  induction fuel with
  | zero => intro m queue visited; rfl
  | succ f ih =>
    intro m queue visited
    match queue with
    | [] => rfl
    | (u, pru) :: qrest =>
      have hsnd := bfs_expand_snd m target pru u.get_neighboors visited []
      simp only [bfs_loop]
      rcases hexp : m.bfs_expand target pru u.get_neighboors visited [] with ⟨⟨res, vis2, items⟩, m2⟩
      rw [hexp] at hsnd
      cases res with
      | some found => simpa using hsnd
      | none => simpa [ih] using hsnd

/-- Claim C10: `search_path` does not modify the world it runs on — the
returned post-state is exactly the input world (same height, weight and every
registry binding), and a repeated search on that post-state returns the same
result. -/
theorem search_path_leaves_map_unchanged (m : Map) (s t : Point) :
    (m.search_path s t).2 = m ∧
      (((m.search_path s t).2).search_path s t).1 = (m.search_path s t).1 := by
  have h2 : (m.search_path s t).2 = m := by
    rw [Map.search_path]
    split
    · rfl
    · exact bfs_loop_snd t _ m _ _
  exact ⟨h2, by rw [h2]⟩

/-! ### What one expansion step does -/

theorem bfs_expand_some (m : Map) (target : Point) (pru : List Point) :
    ∀ (l visited : List Point) (acc : List (Point × List Point))
      (found vis2 : List Point) (items : List (Point × List Point)) (m2 : Map),
      m.bfs_expand target pru l visited acc = ((some found, vis2, items), m2) →
      ∃ v, found = v :: pru ∧ v ∈ l ∧ m.traversable v = true ∧ v ∉ visited ∧
        isNeighborOf v target = true := by
  intro l
  induction l with
  | nil =>
    intro visited acc found vis2 items m2 h
    simp [Map.bfs_expand] at h
  | cons v rest ih =>
    intro visited acc found vis2 items m2 h
    simp only [Map.bfs_expand] at h
    split at h
    · rename_i hcond
      split at h
      · rename_i hadj
        simp only [Prod.mk.injEq, Option.some.injEq] at h
        obtain ⟨⟨hfound, -, -⟩, -⟩ := h
        refine ⟨v, hfound.symm, List.mem_cons_self v rest, ?_, ?_, hadj⟩
        · exact (Bool.and_eq_true _ _).mp hcond |>.1
        · have := (Bool.and_eq_true _ _).mp hcond |>.2
          rw [Bool.not_eq_true'] at this
          exact memPt_eq_false_iff.mp this
      · obtain ⟨w, hf, hmem, htrav, hnv, hadj⟩ := ih _ _ _ _ _ _ h
        refine ⟨w, hf, List.mem_cons_of_mem v hmem, htrav, ?_, hadj⟩
        intro hw
        exact hnv (by simp [hw])
    · obtain ⟨w, hf, hmem, htrav, hnv, hadj⟩ := ih _ _ _ _ _ _ h
      exact ⟨w, hf, List.mem_cons_of_mem v hmem, htrav, hnv, hadj⟩

theorem bfs_expand_none (m : Map) (target : Point) (pru : List Point) :
    ∀ (l visited : List Point) (acc : List (Point × List Point))
      (vis2 : List Point) (items : List (Point × List Point)) (m2 : Map),
      m.bfs_expand target pru l visited acc = ((none, vis2, items), m2) →
      ∃ newN : List Point,
        vis2 = visited ++ newN ∧
        items = acc ++ newN.map (fun w => (w, w :: pru)) ∧
        (∀ w ∈ newN, w ∈ l ∧ m.traversable w = true ∧ w ∉ visited ∧
          isNeighborOf w target = false) ∧
        (visited.Nodup → vis2.Nodup) ∧
        (∀ w ∈ l, m.traversable w = true → w ∈ vis2) := by
  intro l
  induction l with
  | nil =>
    intro visited acc vis2 items m2 h
    simp only [Map.bfs_expand, Prod.mk.injEq] at h
    obtain ⟨⟨-, hv, hi⟩, -⟩ := h
    exact ⟨[], by simp [← hv], by simp [← hi], by simp, by rw [← hv]; exact id, by simp⟩
  | cons v rest ih =>
    intro visited acc vis2 items m2 h
    simp only [Map.bfs_expand] at h
    split at h
    · rename_i hcond
      have htrav : m.traversable v = true := (Bool.and_eq_true _ _).mp hcond |>.1
      have hnv : v ∉ visited := by
        have := (Bool.and_eq_true _ _).mp hcond |>.2
        rw [Bool.not_eq_true'] at this
        exact memPt_eq_false_iff.mp this
      split at h
      · exact absurd h (by simp)
      · rename_i hadj
        rw [Bool.not_eq_true] at hadj
        obtain ⟨newN', hvis, hitems, hprops, hnd, hcover⟩ := ih _ _ _ _ _ h
        refine ⟨v :: newN', ?_, ?_, ?_, ?_, ?_⟩
        · rw [hvis]
          simp
        · rw [hitems]
          simp
        · intro w hw
          rcases List.mem_cons.mp hw with hw | hw
          · subst hw
            exact ⟨List.mem_cons_self _ _, htrav, hnv, hadj⟩
          · obtain ⟨hmem, ht, hnvis, ha⟩ := hprops w hw
            refine ⟨List.mem_cons_of_mem v hmem, ht, ?_, ha⟩
            intro hcontra
            exact hnvis (by simp [hcontra])
        · intro hnodup
          apply hnd
          simp [List.nodup_append, hnodup, hnv]
        · intro w hw ht
          rcases List.mem_cons.mp hw with hw | hw
          · subst hw
            rw [hvis]
            simp
          · exact hcover w hw ht
    · rename_i hcond
      obtain ⟨newN, hvis, hitems, hprops, hnd, hcover⟩ := ih _ _ _ _ _ h
      refine ⟨newN, hvis, hitems, ?_, hnd, ?_⟩
      · intro w hw
        obtain ⟨hmem, ht, hnvis, ha⟩ := hprops w hw
        exact ⟨List.mem_cons_of_mem v hmem, ht, hnvis, ha⟩
      · intro w hw ht
        rcases List.mem_cons.mp hw with hw | hw
        · subst hw
          have hmem : w ∈ visited := by
            by_contra hnot
            have hf : memPt w visited = false := memPt_eq_false_iff.mpr hnot
            exact hcond (by simp [ht, hf])
          rw [hvis]
          exact List.mem_append_left _ hmem
        · exact hcover w hw ht

/-! ### Facts about recorded routes -/

theorem RevChain.head_eq {m : Map} {s : Point} {pr : List Point} {v : Point}
    (h : RevChain m s pr v) : pr.head? = some v := by
  cases h with
  | base => rfl
  | step h1 h2 h3 => rfl

theorem RevChain.length_pos {m : Map} {s : Point} {pr : List Point} {v : Point}
    (h : RevChain m s pr v) : 0 < pr.length := by
  cases h with
  | base => simp
  | step h1 h2 h3 => simp

theorem RevChain.reachN {m : Map} {s : Point} {pr : List Point} {v : Point}
    (h : RevChain m s pr v) : ReachN m s (pr.length - 1) v := by
  induction h with
  | base => exact ReachN.zero
  | step h1 h2 h3 ih =>
    rename_i pr' u' v'
    have hpos := h1.length_pos
    have hlen : (v' :: pr').length - 1 = (pr'.length - 1) + 1 := by
      simp
      omega
    rw [hlen]
    exact ReachN.succ ih h2 h3

/-! ### The loop invariant of the search -/

/-- The invariant maintained by `bfs_loop`: every queue entry carries a valid
recorded route of optimal length to a visited, non-adjacent, target-free node;
the visited list is duplicate-free, contains the start, only holds traversable
nodes (besides the start) and none adjacent to the target; queue entries are
sorted by route length and spread over at most two consecutive lengths; and
every visited node is either still queued or has all its traversable
neighbours visited. -/
structure BfsInv (m : Map) (s target : Point)
    (queue : List (Point × List Point)) (visited : List Point) : Prop where
  start_mem : s ∈ visited
  vis_not_adj : ∀ v ∈ visited, isNeighborOf v target = false
  vis_nodup : visited.Nodup
  vis_ok : ∀ v ∈ visited, v = s ∨ m.traversable v = true
  entry_chain : ∀ e ∈ queue, RevChain m s e.2 e.1
  entry_not_adj : ∀ e ∈ queue, isNeighborOf e.1 target = false
  entry_no_target : ∀ e ∈ queue, target ∉ e.2
  entry_opt : ∀ e ∈ queue, ∀ n, ReachN m s n e.1 → e.2.length - 1 ≤ n
  entry_mem : ∀ e ∈ queue, e.1 ∈ visited
  sorted_q : List.Pairwise (fun a b => a.2.length ≤ b.2.length) queue
  spread_q : ∀ e1 ∈ queue, ∀ e2 ∈ queue, e1.2.length ≤ e2.2.length + 1
  frontier : ∀ v ∈ visited, (∃ pr, (v, pr) ∈ queue) ∨
    ∀ w ∈ v.get_neighboors, m.traversable w = true → w ∈ visited

/-- Any node not yet visited lies at least as far from the start as the route
recorded for the queue's head: the queue dequeues routes in nondecreasing
length order, so nothing shorter remains undiscovered. -/
theorem bfs_lb {m : Map} {s target u : Point} {pru : List Point}
    {qrest : List (Point × List Point)} {visited : List Point}
    (inv : BfsInv m s target ((u, pru) :: qrest) visited) :
    ∀ {n : Nat} {c : Point}, ReachN m s n c → c ∉ visited → pru.length ≤ n := by
  intro n c h
  induction h with
  | zero => intro hs; exact absurd inv.start_mem hs
  | succ h1 h2 h3 ih =>
    rename_i n' u' v'
    intro hv
    by_cases hu : u' ∈ visited
    · rcases inv.frontier u' hu with ⟨pr', hpr'⟩ | hall
      · have hopt := inv.entry_opt (u', pr') hpr' n' h1
        have hmin : pru.length ≤ pr'.length := by
          rcases List.mem_cons.mp hpr' with heq | hmem
          · cases heq
            exact Nat.le_refl _
          · exact (List.pairwise_cons.mp inv.sorted_q).1 _ hmem
        simp only at hopt hmin
        omega
      · exact absurd (hall v' (memPt_iff.mp h2) h3) hv
    · have := ih hu
      omega

/-- The visited list never outgrows the grid: it is duplicate-free and holds
only in-bounds nodes besides the start. -/
theorem visited_length_le (m : Map) (s : Point) (vis : List Point)
    (hnd : vis.Nodup) (hok : ∀ v ∈ vis, v = s ∨ m.traversable v = true) :
    vis.length ≤ m.get_area + 1 := by
  classical
  have hinj : Function.Injective fun ij : Nat × Nat => Point.mk (ij.1 : Int) (ij.2 : Int) := by
    intro a b hab
    simp only [Point.mk.injEq, Int.natCast_inj] at hab
    exact Prod.ext hab.1 hab.2
  set grid : Finset Point :=
    (Finset.range m.height ×ˢ Finset.range m.weight).image
      fun ij : Nat × Nat => Point.mk (ij.1 : Int) (ij.2 : Int) with hgrid_def
  have hgrid : ∀ v ∈ vis, v ∈ insert s grid := by
    intro v hv
    rcases hok v hv with rfl | ht
    · exact Finset.mem_insert_self _ _
    · apply Finset.mem_insert_of_mem
      have hb : m.in_bounds v = true := by
        rw [Map.traversable, Bool.and_eq_true] at ht
        exact ht.1
      rw [Map.in_bounds_iff] at hb
      refine Finset.mem_image.mpr ⟨(v.x.toNat, v.y.toNat), ?_, ?_⟩
      · rw [Finset.mem_product, Finset.mem_range, Finset.mem_range]
        omega
      · obtain ⟨x, y⟩ := v
        simp only [Point.mk.injEq]
        dsimp only at hb
        omega
  have h1 : vis.toFinset.card = vis.length := List.toFinset_card_of_nodup hnd
  have h3 : vis.toFinset.card ≤ (insert s grid).card :=
    Finset.card_le_card fun v hv => hgrid v (List.mem_toFinset.mp hv)
  have h4 : (insert s grid).card ≤ grid.card + 1 := Finset.card_insert_le s grid
  have h5 : grid.card = m.height * m.weight := by
    rw [hgrid_def, Finset.card_image_of_injective _ hinj, Finset.card_product,
      Finset.card_range, Finset.card_range]
  rw [Map.get_area]
  omega

/-- The invariant holds at the start of the search, once the degenerate and
already-adjacent cases have been dispatched. -/
theorem bfs_init_inv (m : Map) (s target : Point) (hne : s ≠ target)
    (hadj : isNeighborOf s target = false) :
    BfsInv m s target [(s, [s])] [s] := by
  refine ⟨?_, ?_, ?_, ?_, ?_, ?_, ?_, ?_, ?_, ?_, ?_, ?_⟩
  · simp
  · intro v hv
    rw [List.mem_singleton.mp hv]
    exact hadj
  · simp
  · intro v hv
    exact Or.inl (List.mem_singleton.mp hv)
  · intro e he
    rw [List.mem_singleton.mp he]
    exact RevChain.base
  · intro e he
    rw [List.mem_singleton.mp he]
    exact hadj
  · intro e he
    rw [List.mem_singleton.mp he]
    simp
    exact fun h => hne h.symm
  · intro e he n hr
    rw [List.mem_singleton.mp he]
    simp
  · intro e he
    rw [List.mem_singleton.mp he]
    simp
  · simp
  · intro e1 h1 e2 h2
    rw [List.mem_singleton.mp h1, List.mem_singleton.mp h2]
    simp
  · intro v hv
    rw [List.mem_singleton.mp hv]
    exact Or.inl ⟨[s], by simp⟩

/-- Expanding the head of the queue preserves the invariant when no stop
fires: the newly discovered nodes join both the visited list and the back of
the queue with routes one step longer than the head's. -/
theorem bfs_inv_step {m : Map} {s target u : Point} {pru : List Point}
    {qrest : List (Point × List Point)} {visited vis2 : List Point}
    {items : List (Point × List Point)} {m2 : Map}
    (inv : BfsInv m s target ((u, pru) :: qrest) visited)
    (h : m.bfs_expand target pru u.get_neighboors visited [] = ((none, vis2, items), m2)) :
    BfsInv m s target (qrest ++ items) vis2 := by
  obtain ⟨newN, hvis, hitems, hprops, hnd, hcover⟩ :=
    bfs_expand_none m target pru u.get_neighboors visited [] vis2 items m2 h
  rw [List.nil_append] at hitems
  have hchain_u : RevChain m s pru u := inv.entry_chain (u, pru) (List.mem_cons_self _ _)
  have hnadj_u : isNeighborOf u target = false :=
    inv.entry_not_adj (u, pru) (List.mem_cons_self _ _)
  have hnt_u : target ∉ pru := inv.entry_no_target (u, pru) (List.mem_cons_self _ _)
  have hsub : ∀ v ∈ visited, v ∈ vis2 := by
    intro v hv
    rw [hvis]
    exact List.mem_append_left _ hv
  have hnewsub : ∀ w ∈ newN, w ∈ vis2 := by
    intro w hw
    rw [hvis]
    exact List.mem_append_right _ hw
  have hitem_shape : ∀ e ∈ items, ∃ w ∈ newN, e = (w, w :: pru) := by
    intro e he
    rw [hitems] at he
    obtain ⟨w, hw, hwe⟩ := List.mem_map.mp he
    exact ⟨w, hw, hwe.symm⟩
  have hitem_len : ∀ e ∈ items, e.2.length = pru.length + 1 := by
    intro e he
    obtain ⟨w, hw, rfl⟩ := hitem_shape e he
    simp
  have hq_lb : ∀ e ∈ qrest, pru.length ≤ e.2.length :=
    fun e he => (List.pairwise_cons.mp inv.sorted_q).1 e he
  have hq_ub : ∀ e ∈ qrest, e.2.length ≤ pru.length + 1 :=
    fun e he => inv.spread_q e (List.mem_cons_of_mem _ he) (u, pru) (List.mem_cons_self _ _)
  refine ⟨?_, ?_, ?_, ?_, ?_, ?_, ?_, ?_, ?_, ?_, ?_, ?_⟩
  · exact hsub s inv.start_mem
  · intro v hv
    rw [hvis] at hv
    rcases List.mem_append.mp hv with hv | hv
    · exact inv.vis_not_adj v hv
    · exact (hprops v hv).2.2.2
  · exact hnd inv.vis_nodup
  · intro v hv
    rw [hvis] at hv
    rcases List.mem_append.mp hv with hv | hv
    · exact inv.vis_ok v hv
    · exact Or.inr (hprops v hv).2.1
  · intro e he
    rcases List.mem_append.mp he with he | he
    · exact inv.entry_chain e (List.mem_cons_of_mem _ he)
    · obtain ⟨w, hw, rfl⟩ := hitem_shape e he
      exact RevChain.step hchain_u (memPt_iff.mpr (hprops w hw).1) (hprops w hw).2.1
  · intro e he
    rcases List.mem_append.mp he with he | he
    · exact inv.entry_not_adj e (List.mem_cons_of_mem _ he)
    · obtain ⟨w, hw, rfl⟩ := hitem_shape e he
      exact (hprops w hw).2.2.2
  · intro e he
    rcases List.mem_append.mp he with he | he
    · exact inv.entry_no_target e (List.mem_cons_of_mem _ he)
    · obtain ⟨w, hw, rfl⟩ := hitem_shape e he
      intro hmem
      rcases List.mem_cons.mp hmem with hteq | hmem2
      · have hwn : w ∈ u.get_neighboors := (hprops w hw).1
        rw [← hteq] at hwn
        have husym : u ∈ target.get_neighboors := get_neighboors_symm.mpr hwn
        rw [← isNeighborOf_iff] at husym
        rw [husym] at hnadj_u
        exact Bool.noConfusion hnadj_u
      · exact hnt_u hmem2
  · intro e he n hr
    rcases List.mem_append.mp he with he | he
    · exact inv.entry_opt e (List.mem_cons_of_mem _ he) n hr
    · obtain ⟨w, hw, rfl⟩ := hitem_shape e he
      have hlb := bfs_lb inv hr (hprops w hw).2.2.1
      simp only [List.length_cons]
      omega
  · intro e he
    rcases List.mem_append.mp he with he | he
    · exact hsub e.1 (inv.entry_mem e (List.mem_cons_of_mem _ he))
    · obtain ⟨w, hw, rfl⟩ := hitem_shape e he
      exact hnewsub w hw
  · rw [List.pairwise_append]
    refine ⟨(List.pairwise_cons.mp inv.sorted_q).2, ?_, ?_⟩
    · apply List.pairwise_of_forall_mem_list
      intro a ha b hb
      rw [hitem_len a ha, hitem_len b hb]
    · intro a ha b hb
      rw [hitem_len b hb]
      exact hq_ub a ha
  · intro e1 h1 e2 h2
    rcases List.mem_append.mp h1 with h1 | h1 <;> rcases List.mem_append.mp h2 with h2 | h2
    · exact inv.spread_q e1 (List.mem_cons_of_mem _ h1) e2 (List.mem_cons_of_mem _ h2)
    · rw [hitem_len e2 h2]
      have := hq_ub e1 h1
      omega
    · rw [hitem_len e1 h1]
      have := hq_lb e2 h2
      omega
    · rw [hitem_len e1 h1, hitem_len e2 h2]
      omega
  · intro v hv
    rw [hvis] at hv
    rcases List.mem_append.mp hv with hv | hv
    · by_cases hvu : v = u
      · subst hvu
        exact Or.inr fun w hw ht => hcover w hw ht
      · rcases inv.frontier v hv with ⟨pr', hpr'⟩ | hall
        · rcases List.mem_cons.mp hpr' with heq | hmem
          · cases heq
            exact absurd rfl hvu
          · exact Or.inl ⟨pr', List.mem_append_left _ hmem⟩
        · exact Or.inr fun w hw ht => hsub w (hall w hw ht)
    · refine Or.inl ⟨v :: pru, List.mem_append_right _ ?_⟩
      rw [hitems]
      exact List.mem_map.mpr ⟨v, hv, rfl⟩

/-- With an empty queue the visited set is closed under traversable steps, so
it contains every reachable node. -/
theorem bfs_closed {m : Map} {s target : Point} {visited : List Point}
    (inv : BfsInv m s target [] visited) :
    ∀ {n : Nat} {c : Point}, ReachN m s n c → c ∈ visited := by
  intro n c h
  induction h with
  | zero => exact inv.start_mem
  | succ h1 h2 h3 ih =>
    rcases inv.frontier _ ih with ⟨pr, hpr⟩ | hall
    · exact absurd hpr (List.not_mem_nil _)
    · exact hall _ (memPt_iff.mp h2) h3

/-- The loop only ever fails with `PathNotFound`. -/
theorem bfs_loop_error_eq (target : Point) :
    ∀ (fuel : Nat) (m : Map) (queue : List (Point × List Point))
      (visited : List Point) (err : MapError) (m2 : Map),
      bfs_loop target fuel m queue visited = (Except.error err, m2) →
      err = MapError.PathNotFound := by
  intro fuel
  induction fuel with
  | zero =>
    intro m q v err m2 h
    simp only [bfs_loop, Prod.mk.injEq, Except.error.injEq] at h
    exact h.1.symm
  | succ f ih =>
    intro m q v err m2 h
    rcases q with _ | ⟨⟨u, pru⟩, qrest⟩
    · simp only [bfs_loop, Prod.mk.injEq, Except.error.injEq] at h
      exact h.1.symm
    · simp only [bfs_loop] at h
      split at h
      · simp at h
      · exact ih _ _ _ _ _ h

/-- Soundness of the loop: an `ok` result is the reverse of a recorded route
whose first node is adjacent to the target, which avoids the target itself,
and whose length undercuts every route to any node adjacent to the target. -/
theorem bfs_loop_ok (s target : Point) :
    ∀ (fuel : Nat) (m : Map) (queue : List (Point × List Point))
      (visited : List Point) (p : List Point) (m2 : Map),
      BfsInv m s target queue visited →
      bfs_loop target fuel m queue visited = (Except.ok p, m2) →
      ∃ pr v, p = pr.reverse ∧ RevChain m s pr v ∧ pr.head? = some v ∧
        isNeighborOf v target = true ∧ target ∉ pr ∧
        ∀ n c, ReachN m s n c → isNeighborOf c target = true → pr.length - 1 ≤ n := by
  intro fuel
  induction fuel with
  | zero =>
    intro m queue visited p m2 inv h
    simp [bfs_loop] at h
  | succ f ih =>
    intro m queue visited p m2 inv h
    rcases queue with _ | ⟨⟨u, pru⟩, qrest⟩
    · simp [bfs_loop] at h
    · simp only [bfs_loop] at h
      split at h
      · rename_i found vis2x itemsx m2x hexp
        obtain ⟨v, hfound, hmem, htrav, hnvis, hadj⟩ :=
          bfs_expand_some m target pru u.get_neighboors visited [] found vis2x itemsx m2x hexp
        simp only [Prod.mk.injEq, Except.ok.injEq] at h
        refine ⟨v :: pru, v, ?_, ?_, rfl, hadj, ?_, ?_⟩
        · rw [← h.1, hfound]
        · exact RevChain.step (inv.entry_chain (u, pru) (List.mem_cons_self _ _))
            (memPt_iff.mpr hmem) htrav
        · intro hmemt
          rcases List.mem_cons.mp hmemt with hteq | hmem2
          · rw [hteq] at hadj
            rw [isNeighborOf_self v] at hadj
            exact Bool.noConfusion hadj
          · exact inv.entry_no_target (u, pru) (List.mem_cons_self _ _) hmem2
        · intro n c hr hc
          have hcnv : c ∉ visited := by
            intro hcv
            rw [inv.vis_not_adj c hcv] at hc
            exact Bool.noConfusion hc
          have := bfs_lb inv hr hcnv
          simp only [List.length_cons]
          omega
      · rename_i vis2 items m2x hexp
        have hm : m2x = m := by
          have hs := bfs_expand_snd m target pru u.get_neighboors visited []
          rw [hexp] at hs
          exact hs
        subst hm
        exact ih _ (qrest ++ items) vis2 p m2 (bfs_inv_step inv hexp) h

/-- Completeness of the loop: if some node adjacent to the target is reachable
and the fuel dominates the remaining work, the loop succeeds. -/
theorem bfs_loop_complete (s target : Point) :
    ∀ (fuel : Nat) (m : Map) (queue : List (Point × List Point)) (visited : List Point),
      BfsInv m s target queue visited →
      queue.length + (m.get_area + 1 - visited.length) ≤ fuel →
      (∃ n c, ReachN m s n c ∧ isNeighborOf c target = true) →
      ∃ p m2, bfs_loop target fuel m queue visited = (Except.ok p, m2) := by
  intro fuel
  induction fuel with
  | zero =>
    intro m queue visited inv hfuel hreach
    rcases queue with _ | ⟨⟨u, pru⟩, qrest⟩
    · obtain ⟨n, c, hr, hc⟩ := hreach
      have := bfs_closed inv hr
      rw [inv.vis_not_adj c this] at hc
      exact Bool.noConfusion hc
    · simp at hfuel
  | succ f ih =>
    intro m queue visited inv hfuel hreach
    rcases queue with _ | ⟨⟨u, pru⟩, qrest⟩
    · obtain ⟨n, c, hr, hc⟩ := hreach
      have := bfs_closed inv hr
      rw [inv.vis_not_adj c this] at hc
      exact Bool.noConfusion hc
    · simp only [bfs_loop]
      rcases hexp : m.bfs_expand target pru u.get_neighboors visited [] with ⟨⟨res, vis2, items⟩, m2x⟩
      have hm : m2x = m := by
        have hs := bfs_expand_snd m target pru u.get_neighboors visited []
        rw [hexp] at hs
        exact hs
      cases res with
      | some found =>
        exact ⟨found.reverse, m2x, rfl⟩
      | none =>
        rw [hm] at hexp
        have inv2 := bfs_inv_step inv hexp
        obtain ⟨newN, hvis, hitems, -, -, -⟩ :=
          bfs_expand_none m target pru u.get_neighboors visited [] vis2 items m hexp
        rw [List.nil_append] at hitems
        have hlen_items : items.length = newN.length := by
          rw [hitems, List.length_map]
        have hlen_vis2 : vis2.length = visited.length + newN.length := by
          rw [hvis, List.length_append]
        have hbound : vis2.length ≤ m.get_area + 1 :=
          visited_length_le m s vis2 inv2.vis_nodup inv2.vis_ok
        show ∃ p m2, bfs_loop target f m2x (qrest ++ items) vis2 = (Except.ok p, m2)
        rw [hm]
        apply ih m (qrest ++ items) vis2 inv2 ?_ hreach
        simp only [List.length_append, List.length_cons] at hfuel ⊢
        omega

/-! ### Claims about the path search -/

/-- Claim C2: whenever `start ≠ target` and some cell adjacent to `target` is
reachable from `start`, the search succeeds, the last element of the returned
sequence is a 4-connected neighbour of `target`, and `target` itself never
appears in the sequence. -/
theorem search_path_stops_adjacent (m : Map) (s t : Point) (hne : s ≠ t)
    (hreach : ∃ n c, ReachN m s n c ∧ isNeighborOf c t = true) :
    ∃ p c, (m.search_path s t).1 = Except.ok p ∧ p.getLast? = some c ∧
      isNeighborOf c t = true ∧ t ∉ p := by
  rw [Map.search_path]
  have hne' : Point.eq s t = false := by
    rw [← Bool.not_eq_true, Point.eq_iff]
    exact hne
  by_cases hadj : isNeighborOf s t = true
  · rw [if_pos (by simp [hadj])]
    exact ⟨[s], s, rfl, rfl, hadj, by simp [Ne.symm hne]⟩
  · have hadjf : isNeighborOf s t = false := by
      rw [← Bool.not_eq_true]
      exact hadj
    rw [if_neg (by simp [hne', hadjf])]
    have inv := bfs_init_inv m s t hne hadjf
    have hfuel : ([(s, [s])] : List (Point × List Point)).length +
        (m.get_area + 1 - ([s] : List Point).length) ≤ m.get_area + 1 := by
      simp
      omega
    obtain ⟨p, m2, hp⟩ := bfs_loop_complete s t (m.get_area + 1) m _ _ inv hfuel hreach
    obtain ⟨pr, v, hpeq, hchain, hhead, hvadj, hnt, hopt⟩ :=
      bfs_loop_ok s t (m.get_area + 1) m _ _ p m2 inv hp
    refine ⟨p, v, by rw [hp], ?_, hvadj, ?_⟩
    · rw [hpeq, List.getLast?_reverse, hhead]
    · rw [hpeq, List.mem_reverse]
      exact hnt

/-- Claim C3 (amended): whenever `start ≠ target` and some cell adjacent to
`target` is reachable from `start`, the search succeeds with a sequence whose
number of steps is realised by a route to a cell adjacent to `target` and
undercuts every route from `start` to any cell adjacent to `target` — it
equals the breadth-first distance to the nearest such cell, and no shorter
qualifying sequence exists. -/
theorem search_path_shortest (m : Map) (s t : Point) (hne : s ≠ t)
    (hreach : ∃ n c, ReachN m s n c ∧ isNeighborOf c t = true) :
    ∃ p, (m.search_path s t).1 = Except.ok p ∧
      (∃ c, ReachN m s (p.length - 1) c ∧ isNeighborOf c t = true) ∧
      ∀ n c, ReachN m s n c → isNeighborOf c t = true → p.length - 1 ≤ n := by
  rw [Map.search_path]
  have hne' : Point.eq s t = false := by
    rw [← Bool.not_eq_true, Point.eq_iff]
    exact hne
  by_cases hadj : isNeighborOf s t = true
  · rw [if_pos (by simp [hadj])]
    exact ⟨[s], rfl, ⟨s, ReachN.zero, hadj⟩, fun n c hr hc => Nat.zero_le n⟩
  · have hadjf : isNeighborOf s t = false := by
      rw [← Bool.not_eq_true]
      exact hadj
    rw [if_neg (by simp [hne', hadjf])]
    have inv := bfs_init_inv m s t hne hadjf
    have hfuel : ([(s, [s])] : List (Point × List Point)).length +
        (m.get_area + 1 - ([s] : List Point).length) ≤ m.get_area + 1 := by
      simp
      omega
    obtain ⟨p, m2, hp⟩ := bfs_loop_complete s t (m.get_area + 1) m _ _ inv hfuel hreach
    obtain ⟨pr, v, hpeq, hchain, hhead, hvadj, hnt, hopt⟩ :=
      bfs_loop_ok s t (m.get_area + 1) m _ _ p m2 inv hp
    have hplen : p.length = pr.length := by
      rw [hpeq, List.length_reverse]
    refine ⟨p, by rw [hp], ⟨v, ?_, hvadj⟩, ?_⟩
    · rw [hplen]
      exact hchain.reachN
    · intro n c hr hc
      rw [hplen]
      exact hopt n c hr hc

/-- Claim C4 (amended): whenever `start ≠ target` and no cell adjacent to
`target` is reachable from `start`, the search fails with `PathNotFound`
rather than returning a partial or empty sequence, and the world is left
exactly as it was. -/
theorem search_path_no_path (m : Map) (s t : Point) (hne : s ≠ t)
    (hnone : ∀ n c, ReachN m s n c → isNeighborOf c t = false) :
    (m.search_path s t).1 = Except.error MapError.PathNotFound ∧
      (m.search_path s t).2 = m := by
  have hadjf : isNeighborOf s t = false := hnone 0 s ReachN.zero
  have hne' : Point.eq s t = false := by
    rw [← Bool.not_eq_true, Point.eq_iff]
    exact hne
  refine ⟨?_, (search_path_leaves_map_unchanged m s t).1⟩
  rw [Map.search_path, if_neg (by simp [hne', hadjf])]
  rcases hres : bfs_loop t (m.get_area + 1) m [(s, [s])] [s] with ⟨res, m2⟩
  cases res with
  | ok p =>
    obtain ⟨pr, v, -, hchain, -, hvadj, -, -⟩ :=
      bfs_loop_ok s t (m.get_area + 1) m _ _ p m2 (bfs_init_inv m s t hne hadjf) hres
    rw [hnone _ _ hchain.reachN] at hvadj
    exact Bool.noConfusion hvadj
  | error err =>
    rw [bfs_loop_error_eq t (m.get_area + 1) m _ _ err m2 hres]

/-! ### Concrete reachability facts used by the witnesses -/

/-- A concrete 5-step route on the empty 5×5 world ending beside `(3,3)`. -/
theorem reach_m5_beside_target : ReachN map5 ⟨0, 0⟩ 5 ⟨2, 3⟩ := by
  have h1 : ReachN map5 ⟨0, 0⟩ 1 ⟨0, 1⟩ :=
    ReachN.succ ReachN.zero (by decide) (by decide)
  have h2 : ReachN map5 ⟨0, 0⟩ 2 ⟨0, 2⟩ := ReachN.succ h1 (by decide) (by decide)
  have h3 : ReachN map5 ⟨0, 0⟩ 3 ⟨0, 3⟩ := ReachN.succ h2 (by decide) (by decide)
  have h4 : ReachN map5 ⟨0, 0⟩ 4 ⟨1, 3⟩ := ReachN.succ h3 (by decide) (by decide)
  exact ReachN.succ h4 (by decide) (by decide)

/-- On the 1×1 world every route from the origin stays at the origin: all
four neighbours of the single cell are out of bounds. -/
theorem map1_reach_only_origin : ∀ {n : Nat} {c : Point},
    ReachN map1 ⟨0, 0⟩ n c → c = ⟨0, 0⟩ := by
  intro n c h
  induction h with
  | zero => rfl
  | succ h1 h2 h3 ih =>
    rename_i n' u' v'
    have hb : map1.in_bounds v' = true := by
      rw [Map.traversable, Bool.and_eq_true] at h3
      exact h3.1
    rw [Map.in_bounds_iff] at hb
    obtain ⟨x, y⟩ := v'
    dsimp only [map1] at hb
    simp only [Point.mk.injEq]
    omega

/-- Witness for claim C2: on the empty 5×5 world with start `(0,0)` and target
`(3,3)`, both hypotheses hold and the search ends beside the target without
touching it. -/
theorem search_path_stops_adjacent_witness :
    ∃ p c, (map5.search_path ⟨0, 0⟩ ⟨3, 3⟩).1 = Except.ok p ∧
      p.getLast? = some c ∧ isNeighborOf c ⟨3, 3⟩ = true ∧ (⟨3, 3⟩ : Point) ∉ p :=
  search_path_stops_adjacent map5 ⟨0, 0⟩ ⟨3, 3⟩ (by decide)
    ⟨5, ⟨2, 3⟩, reach_m5_beside_target, by decide⟩

/-- Witness for claim C3: the same concrete scenario, with the shortest-length
guarantees instantiated. -/
theorem search_path_shortest_witness :
    ∃ p, (map5.search_path ⟨0, 0⟩ ⟨3, 3⟩).1 = Except.ok p ∧
      (∃ c, ReachN map5 ⟨0, 0⟩ (p.length - 1) c ∧ isNeighborOf c ⟨3, 3⟩ = true) ∧
      ∀ n c, ReachN map5 ⟨0, 0⟩ n c → isNeighborOf c ⟨3, 3⟩ = true →
        p.length - 1 ≤ n :=
  search_path_shortest map5 ⟨0, 0⟩ ⟨3, 3⟩ (by decide)
    ⟨5, ⟨2, 3⟩, reach_m5_beside_target, by decide⟩

/-- Counterexample to claim C3 as stated: with `start = target = (1,1)` on the
empty 5×5 world — a pair for which cells adjacent to the target are reachable —
the search returns the zero-step sequence `[(1,1)]`, yet the breadth-first
distance to the nearest traversable cell adjacent to the target is `1`: a
one-step route to `(1,2)` exists, and no zero-step route ends adjacent. -/
theorem search_path_shortest_counterexample :
    (map5.search_path ⟨1, 1⟩ ⟨1, 1⟩).1 = Except.ok [⟨1, 1⟩] ∧
      (∃ c, ReachN map5 ⟨1, 1⟩ 1 c ∧ isNeighborOf c ⟨1, 1⟩ = true) ∧
      ∀ c, ReachN map5 ⟨1, 1⟩ 0 c → isNeighborOf c ⟨1, 1⟩ = false := by
  refine ⟨rfl, ⟨⟨1, 2⟩, ReachN.succ ReachN.zero (by decide) (by decide), by decide⟩, ?_⟩
  intro c h
  cases h
  decide

/-- Witness for claim C4: from `(0,0)` on the 1×1 world no cell adjacent to
the distinct target `(5,5)` is reachable, and the search reports
`PathNotFound` leaving the world unchanged. -/
theorem search_path_no_path_witness :
    (map1.search_path ⟨0, 0⟩ ⟨5, 5⟩).1 = Except.error MapError.PathNotFound ∧
      (map1.search_path ⟨0, 0⟩ ⟨5, 5⟩).2 = map1 :=
  search_path_no_path map1 ⟨0, 0⟩ ⟨5, 5⟩ (by decide)
    (fun n c h => by rw [map1_reach_only_origin h]; decide)

/-- Counterexample to claim C4 as stated: with `start = target = (0,0)` on the
1×1 world no cell adjacent to the target is reachable, yet the search does not
fail — it returns `[(0,0)]`, following the degenerate-input convention. -/
theorem search_path_no_path_counterexample :
    (∀ n c, ReachN map1 ⟨0, 0⟩ n c → isNeighborOf c ⟨0, 0⟩ = false) ∧
      (map1.search_path ⟨0, 0⟩ ⟨0, 0⟩).1 = Except.ok [⟨0, 0⟩] :=
  ⟨fun n c h => by rw [map1_reach_only_origin h]; decide, rfl⟩
